import Mathlib

set_option maxHeartbeats 1000000

/-!
Shallow embedding of `src/avm1.rs` from lykenware/flashback: a translator from
a single AVM1 basic block (action list plus terminal flow marker) to a linear
`Code` artifact (a list of `Op`s), performed by symbolic execution of the
operand stack at compile time.

Modelling conventions:
* Rust panics (`Vec::remove` on an empty vector, `Option::unwrap` on `None`,
  out-of-range indexing) are modelled by returning `none`: `compile` has type
  `Cfg → Option Code`, where `none` is abnormal termination.
* The operand stack `Vec<Value>` (push/pop at the tail) is modelled as a Lean
  `List Value` whose head is the top of the stack.
* `i32` values are modelled as `Int` (no arithmetic is performed on them, so
  wrap-around never arises); the `u16` cast in `GotoFrame` is `% 65536`.
* `f32`/`f64` payloads are modelled by the single attribute the translator
  observes about a float: the result of its `as_i32` coercion (`some n` when
  the float round-trips exactly through truncation to `i32`, `none` otherwise).
* The `break` statements of the translation loop (bail-out on operands that
  cannot be resolved statically) are modelled by an explicit `StepResult.brk`,
  which stops the loop but still returns the state built so far.
-/

namespace Avm1

/-- Compile-time values tracked by the symbolic stack simulator (`enum Value`
in `src/avm1.rs`).  `OpRes i` is `Value::OpRes(usize)`: a back-reference to
the runtime result of the op emitted at position `i`.  The float payloads are
abstracted to their observable `as_i32` coercion (see the module comment). -/
inductive Value where
  | Undefined
  | Null
  | Bool (b : Bool)
  | I32 (x : Int)
  | F32 (coerced : Option Int)
  | F64 (coerced : Option Int)
  | Str (s : String)
  | OpRes (i : Nat)
deriving DecidableEq

/-- `Value::as_i32`: an `I32` yields itself; a float yields an integer exactly
when it round-trips (`x == (x as i32 as fN)` in the source), which in this
embedding is recorded in the float's payload; everything else yields `none`. -/
def Value.as_i32 : Value → Option Int
  | .I32 x => some x
  | .F32 c => c
  | .F64 c => c
  | _ => none

/-- `Value::as_str`: the inner string, only for the `Str` variant. -/
def Value.as_str : Value → Option String
  | .Str s => some s
  | _ => none

/-- The intermediate operations (`enum Op` in `src/avm1.rs`).  `GotoFrame`
carries the `u16` newtype `Frame` from the timeline module, modelled as `Nat`. -/
inductive Op where
  | Play
  | Stop
  | GotoFrame (frame : Nat)
  | GotoLabel (label : String)
  | GetUrl (url : String) (target : String)
  | GetVar (name : String)
  | SetVar (name : String) (value : Value)
  | Call (callee : Value) (args : List Value)
  | CallMethod (receiver : Value) (name : String) (args : List Value)
deriving DecidableEq

/-- The finished artifact (`struct Code`): an ordered op sequence. -/
structure Code where
  ops : List Op
deriving DecidableEq

/-- Push-action payload values (`avm1_types::PushValue`).  `Constant` carries a
constant-pool index (`u16`), `Register` a register index (`u8`); both are
modelled as `Nat`.  Float payloads are abstracted as in `Value`. -/
inductive PushValue where
  | Undefined
  | Null
  | Boolean (b : Bool)
  | Sint32 (x : Int)
  | Float32 (coerced : Option Int)
  | Float64 (coerced : Option Int)
  | String (s : String)
  | Constant (i : Nat)
  | Register (i : Nat)
deriving DecidableEq

/-- The source actions (`avm1_types::cfg::Action`), restricted to the variants
`Code::compile` matches on; `other` stands for every remaining variant, all of
which hit the catch-all arm (log and break). -/
inductive Action where
  | Play
  | Stop
  | GotoFrame (frame : Nat)
  | GotoLabel (label : String)
  | GetUrl (url : String) (target : String)
  | ConstantPool (pool : List String)
  | Push (values : List PushValue)
  | Pop
  | GetVariable
  | SetVariable
  | CallFunction
  | CallMethod
  | other
deriving DecidableEq

/-- Terminal flow markers (`avm1_types::cfg::CfgFlow`), restricted to the
variants `compile` matches on; the payloads of `WaitForFrame`/`WaitForFrame2`
are never read, and `other` stands for every remaining variant (all hit the
catch-all arm, which only logs). -/
inductive CfgFlow where
  | WaitForFrame
  | WaitForFrame2
  | other
deriving DecidableEq

/-- A basic block (`avm1_types::cfg::CfgBlock`): action list plus flow marker. -/
structure CfgBlock where
  actions : List Action
  flow : CfgFlow
deriving DecidableEq

/-- A control-flow graph (`avm1_types::cfg::Cfg`): a list of blocks. -/
structure Cfg where
  blocks : List CfgBlock
deriving DecidableEq

/-- The mutable local state of `Code::compile`: the constant pool `consts`,
the register file `regs`, the operand stack `stack`, and the emitted ops. -/
structure St where
  consts : List String
  regs : List Value
  stack : List Value
  ops : List Op
deriving DecidableEq

/-- Outcome of translating one action: `cont` proceeds to the next action,
`brk` models the `break` statements (bail-out: stop the loop, keep the state).
A panic is modelled by `none` at the `Option StepResult` level. -/
inductive StepResult where
  | cont (s : St)
  | brk (s : St)
deriving DecidableEq

/-- The state carried by a step outcome. -/
def StepResult.st : StepResult → St
  | .cont s => s
  | .brk s => s

/-- Resolution of one `PushValue` (the closure passed to `map` inside
`Action::Push`): literals map 1:1; `Constant i` reads `consts[i]` and
`Register i` reads `regs[i]`, and an out-of-range index is the indexing panic,
modelled as `none`. -/
def resolvePush (consts : List String) (regs : List Value) : PushValue → Option Value
  | .Undefined => some .Undefined
  | .Null => some .Null
  | .Boolean b => some (.Bool b)
  | .Sint32 x => some (.I32 x)
  | .Float32 c => some (.F32 c)
  | .Float64 c => some (.F64 c)
  | .String s => some (.Str s)
  | .Constant i => (consts.get? i).map Value.Str
  | .Register i => regs.get? i

/-- Resolution of a whole push list (`stack.extend(push.values.map(...))`):
any indexing panic aborts the whole translation. -/
def resolveAll (consts : List String) (regs : List Value) : List PushValue → Option (List Value)
  | [] => some []
  | v :: rest =>
    match resolvePush consts regs v, resolveAll consts regs rest with
    | some x, some xs => some (x :: xs)
    | _, _ => none

/-- `n` repeated `stack.pop().unwrap()` calls (the argument collection
`(0..arg_count).map(|_| stack.pop().unwrap()).collect()`): returns the popped
values in pop order together with the remaining stack, or `none` (panic) if
the stack runs dry. -/
def popN : Nat → List Value → Option (List Value × List Value)
  | 0, st => some ([], st)
  | _ + 1, [] => none
  | n + 1, v :: st => (popN n st).map fun p => (v :: p.1, p.2)

/-- The empty-string normalization of a `CallMethod` method name
(`if let Value::Str(s) = &name { if s.is_empty() { name = Value::Undefined } }`). -/
def normalizeMethodName : Value → Value
  | .Str nm => if nm = "" then .Undefined else .Str nm
  | v => v

/-- Translation of one action: the body of the `for action in block.actions`
loop of `Code::compile`, one arm per `Action` variant.  `none` models a panic
(`unwrap` on an empty stack, out-of-range pool or register index); `brk`
models the bail-out `break` statements. -/
def step (s : St) : Action → Option StepResult
  | .Play => some (.cont { s with ops := s.ops ++ [.Play] })
  | .Stop => some (.cont { s with ops := s.ops ++ [.Stop] })
  | .GotoFrame frame => some (.cont { s with ops := s.ops ++ [.GotoFrame (frame % 65536)] })
  | .GotoLabel label => some (.cont { s with ops := s.ops ++ [.GotoLabel label] })
  | .GetUrl url target => some (.cont { s with ops := s.ops ++ [.GetUrl url target] })
  | .ConstantPool pool => some (.cont { s with consts := pool })
  | .Push values =>
    match resolveAll s.consts s.regs values with
    | none => none
    | some pushed => some (.cont { s with stack := pushed.reverse ++ s.stack })
  | .Pop => some (.cont { s with stack := s.stack.tail })
  | .GetVariable =>
    match s.stack with
    | [] => none
    | .Str name :: t =>
      some (.cont { s with stack := .OpRes s.ops.length :: t, ops := s.ops ++ [.GetVar name] })
    | _ :: t => some (.brk { s with stack := t })
  | .SetVariable =>
    match s.stack with
    | value :: .Str name :: t =>
      some (.cont { s with stack := .OpRes s.ops.length :: t,
                           ops := s.ops ++ [.SetVar name value] })
    | _ :: _ :: t => some (.brk { s with stack := t })
    | _ => none
  | .CallFunction =>
    match s.stack with
    | name :: argCount :: t =>
      match name, argCount.as_i32 with
      | .Str nm, some n =>
        match popN n.toNat t with
        | none => none
        | some (args, rest) =>
          some (.cont { s with
            stack := .OpRes (s.ops.length + 1) :: rest,
            ops := s.ops ++ [.GetVar nm, .Call (.OpRes s.ops.length) args] })
      | _, _ => some (.brk { s with stack := t })
    | _ => none
  | .CallMethod =>
    match s.stack with
    | name :: this :: argCount :: t =>
      match normalizeMethodName name, argCount.as_i32 with
      | .Undefined, some n =>
        match popN n.toNat t with
        | none => none
        | some (args, rest) =>
          some (.cont { s with stack := .OpRes s.ops.length :: rest,
                               ops := s.ops ++ [.Call this args] })
      | .Str nm, some n =>
        match popN n.toNat t with
        | none => none
        | some (args, rest) =>
          some (.cont { s with stack := .OpRes s.ops.length :: rest,
                               ops := s.ops ++ [.CallMethod this nm args] })
      | _, _ => some (.brk { s with stack := t })
    | _ => none
  | .other => some (.brk s)

/-- The translation loop: actions are processed in order until the list is
exhausted, a bail-out `break` occurs, or a panic occurs. -/
def runActions : St → List Action → Option St
  | s, [] => some s
  | s, a :: rest =>
    match step s a with
    | none => none
    | some (.brk s') => some s'
    | some (.cont s') => runActions s' rest

/-- The flow epilogue (`match block.flow`): `WaitForFrame` needs no action;
`WaitForFrame2` discards one more stack value via a plain `Vec::pop` (a silent
no-op when the stack is empty); any other marker is only logged. -/
def applyFlow (s : St) : CfgFlow → St
  | .WaitForFrame => s
  | .WaitForFrame2 => { s with stack := s.stack.tail }
  | .other => s

/-- The initial state of `Code::compile`: all four vectors start empty (the
`regs.push(Value::Undefined); regs.pop();` warning-suppression hack nets to an
empty register file). -/
def initSt : St :=
  { consts := [], regs := [], stack := [], ops := [] }

/-- `Code::compile`: takes the first block (`cfg.blocks.into_vec().remove(0)`,
a panic — `none` — when the block list is empty, discarding all later blocks),
runs the translation loop, applies the flow epilogue, and returns the emitted
ops. -/
def compile (cfg : Cfg) : Option Code :=
  match cfg.blocks with
  | [] => none
  | block :: _ =>
    (runActions initSt block.actions).map fun s => { ops := (applyFlow s block.flow).ops }

/-- `v.refsBelow k`: every `OpRes` index inside the value is `< k`.
(The return type, `Bool`, is left to inference: inside the `Value` namespace
the plain name would resolve to the `Value.Bool` constructor.) -/
def Value.refsBelow (v : Value) (k : Nat) :=
  match v with
  | .OpRes i => decide (i < k)
  | _ => true

/-- `op.refsBelow k`: every `OpRes` index inside the op's operands is `< k`. -/
def Op.refsBelow : Op → Nat → Bool
  | .SetVar _ v, k => v.refsBelow k
  | .Call f args, k => f.refsBelow k && args.all fun a => a.refsBelow k
  | .CallMethod r _ args, k => r.refsBelow k && args.all fun a => a.refsBelow k
  | _, _ => true

/-- `wfFrom k ops`: in the op sequence `ops` starting at position `k`, every
op only back-references strictly earlier positions.  `wfFrom 0 code.ops` is
the no-forward-reference invariant of the `Code` artifact. -/
def wfFrom : Nat → List Op → Bool
  | _, [] => true
  | k, op :: rest => op.refsBelow k && wfFrom (k + 1) rest

/-- The inductive invariant of the translation loop: the emitted ops only
back-reference earlier ops, and every value on the stack or in the register
file only references ops already emitted. -/
def stInv (s : St) : Bool :=
  wfFrom 0 s.ops
    && s.stack.all (fun v => v.refsBelow s.ops.length)
    && s.regs.all (fun v => v.refsBelow s.ops.length)

/-! ## Helper lemmas -/

/-- The flow epilogue only touches the stack, never the emitted ops. -/
theorem applyFlow_ops (s : St) (f : CfgFlow) : (applyFlow s f).ops = s.ops := by
  cases f <;> rfl

/-- `refsBelow` is monotone in the bound. -/
theorem Value.refsBelow_mono {v : Value} {k k' : Nat} (hk : k ≤ k')
    (h : v.refsBelow k = true) : v.refsBelow k' = true := by
  cases v <;> simp_all [Value.refsBelow]
  omega

/-- Splitting `wfFrom` across an append. -/
theorem wfFrom_append (k : Nat) (l l' : List Op) :
    wfFrom k (l ++ l') = (wfFrom k l && wfFrom (k + l.length) l') := by
  induction l generalizing k with
  | nil => simp [wfFrom]
  | cons op rest ih =>
    have hlen : k + 1 + rest.length = k + (rest.length + 1) := by omega
    simp [wfFrom, ih, Bool.and_assoc, hlen]

/-- A successful `popN` splits the stack into the popped prefix and the rest. -/
theorem popN_eq_append {n : Nat} {st args rest : List Value}
    (h : popN n st = some (args, rest)) : st = args ++ rest := by
  induction n generalizing st args with
  | zero =>
    simp [popN] at h
    simp [h.1.symm, h.2.symm]
  | succ n ih =>
    cases st with
    | nil => simp [popN] at h
    | cons v st' =>
      simp only [popN] at h
      cases hp : popN n st' with
      | none => rw [hp] at h; cases h
      | some p =>
        rw [hp] at h
        obtain ⟨a, b⟩ := p
        simp at h
        obtain ⟨rfl, rfl⟩ := h
        simp [ih hp]

/-- Resolving one push value yields a value whose references stay below any
bound that bounds the register file. -/
theorem resolvePush_refsBelow {consts : List String} {regs : List Value} {pv : PushValue}
    {x : Value} {k : Nat} (h : resolvePush consts regs pv = some x)
    (hregs : regs.all (fun v => v.refsBelow k) = true) : x.refsBelow k = true := by
  cases pv <;> simp [resolvePush] at h
  all_goals first
    | (subst h; rfl)
    | (obtain ⟨c, _, rfl⟩ := h; rfl)
    | exact List.all_eq_true.mp hregs x (List.getElem?_mem h)

/-- Resolving a push list yields values whose references stay below any bound
that bounds the register file. -/
theorem resolveAll_refsBelow {consts : List String} {regs : List Value}
    {values : List PushValue} {xs : List Value} {k : Nat}
    (h : resolveAll consts regs values = some xs)
    (hregs : regs.all (fun v => v.refsBelow k) = true) :
    xs.all (fun v => v.refsBelow k) = true := by
  induction values generalizing xs with
  | nil => simp [resolveAll] at h; subst h; rfl
  | cons v rest ih =>
    simp only [resolveAll] at h
    cases hv : resolvePush consts regs v with
    | none => rw [hv] at h; cases h
    | some x =>
      rw [hv] at h
      cases hr : resolveAll consts regs rest with
      | none => rw [hr] at h; cases h
      | some ys =>
        rw [hr] at h
        cases h
        simp [List.all_eq_true]
        constructor
        · exact resolvePush_refsBelow hv hregs
        · exact fun a ha => List.all_eq_true.mp (ih hr) a ha

/-- The stack component of the invariant. -/
theorem stInv_stack {s : St} (h : stInv s = true) :
    ∀ v ∈ s.stack, v.refsBelow s.ops.length = true := by
  simp only [stInv, Bool.and_eq_true, List.all_eq_true] at h
  exact h.1.2

/-- The register component of the invariant. -/
theorem stInv_regs {s : St} (h : stInv s = true) :
    s.regs.all (fun v => v.refsBelow s.ops.length) = true := by
  simp only [stInv, Bool.and_eq_true] at h
  exact h.2

/-- The ops component of the invariant. -/
theorem stInv_wf {s : St} (h : stInv s = true) : wfFrom 0 s.ops = true := by
  simp only [stInv, Bool.and_eq_true] at h
  exact h.1.1

/-- Core preservation lemma: appending ops whose references stay below the
positions they occupy, and replacing the stack by well-bounded new values on
top of values kept from the old stack, preserves the invariant. -/
theorem stInv_update (s : St) (newStack kept : List Value) (newOps : List Op)
    (hinv : stInv s = true)
    (hkept : ∀ v ∈ kept, v ∈ s.stack)
    (hops : wfFrom s.ops.length newOps = true)
    (hnew : ∀ v ∈ newStack, v.refsBelow (s.ops.length + newOps.length) = true) :
    stInv { s with stack := newStack ++ kept, ops := s.ops ++ newOps } = true := by
  have hstack := stInv_stack hinv
  have hregs := stInv_regs hinv
  have hwf := stInv_wf hinv
  simp only [stInv, Bool.and_eq_true, List.all_eq_true]
  refine ⟨⟨?_, ?_⟩, ?_⟩
  · rw [wfFrom_append]
    simp only [Nat.zero_add] at hops ⊢
    simp [hwf, hops]
  · intro v hv
    simp only [List.length_append]
    rcases List.mem_append.mp hv with hv | hv
    · exact hnew v hv
    · exact Value.refsBelow_mono (Nat.le_add_right _ _) (hstack v (hkept v hv))
  · intro v hv
    simp only [List.length_append]
    exact Value.refsBelow_mono (Nat.le_add_right _ _) (List.all_eq_true.mp hregs v hv)

/-- Dropping stack values (keeping a subset, emitting nothing) preserves the
invariant: the shape of every `brk` bail-out and of `Pop`. -/
theorem stInv_drop {s : St} (hinv : stInv s = true) (kept : List Value)
    (hkept : ∀ v ∈ kept, v ∈ s.stack) : stInv { s with stack := kept } = true := by
  simpa using stInv_update s [] kept [] hinv hkept rfl (by simp)

/-- Pushing well-bounded values (emitting nothing) preserves the invariant:
the shape of `Push`. -/
theorem stInv_push {s : St} (hinv : stInv s = true) (newStack : List Value)
    (hnew : ∀ v ∈ newStack, v.refsBelow s.ops.length = true) :
    stInv { s with stack := newStack ++ s.stack } = true := by
  simpa using stInv_update s newStack s.stack [] hinv (fun x hx => hx) rfl
    (by simpa using hnew)

/-- Emitting ops without touching the stack preserves the invariant: the shape
of `Play`, `Stop`, `GotoFrame`, `GotoLabel`, `GetUrl`. -/
theorem stInv_emitNoPush {s : St} (hinv : stInv s = true) (newOps : List Op)
    (hops : wfFrom s.ops.length newOps = true) :
    stInv { s with ops := s.ops ++ newOps } = true := by
  simpa using stInv_update s [] s.stack newOps hinv (fun x hx => hx) hops (by simp)

/-- Emitting ops and pushing a single in-range `OpRes` on top of kept stack
values preserves the invariant: the shape of `GetVariable`, `SetVariable`,
`CallFunction`, `CallMethod`. -/
theorem stInv_emit {s : St} (hinv : stInv s = true) (kept : List Value)
    (newOps : List Op) (j : Nat)
    (hkept : ∀ v ∈ kept, v ∈ s.stack)
    (hops : wfFrom s.ops.length newOps = true)
    (hj : j < s.ops.length + newOps.length) :
    stInv { s with stack := .OpRes j :: kept, ops := s.ops ++ newOps } = true := by
  have := stInv_update s [.OpRes j] kept newOps hinv hkept hops
    (by intro x hx; simp at hx; subst hx; simp [Value.refsBelow, hj])
  simpa using this

/-- Translating one action preserves the invariant, whether the step continues
or bails out. -/
theorem step_inv {s : St} {a : Action} {r : StepResult}
    (h : step s a = some r) (hinv : stInv s = true) : stInv r.st = true := by
  obtain ⟨consts, regs, stack, ops⟩ := s
  cases a with
  | Play =>
    simp only [step] at h
    injection h with h; subst h
    exact stInv_emitNoPush hinv [.Play] rfl
  | Stop =>
    simp only [step] at h
    injection h with h; subst h
    exact stInv_emitNoPush hinv [.Stop] rfl
  | GotoFrame frame =>
    simp only [step] at h
    injection h with h; subst h
    exact stInv_emitNoPush hinv [.GotoFrame (frame % 65536)] rfl
  | GotoLabel label =>
    simp only [step] at h
    injection h with h; subst h
    exact stInv_emitNoPush hinv [.GotoLabel label] rfl
  | GetUrl url target =>
    simp only [step] at h
    injection h with h; subst h
    exact stInv_emitNoPush hinv [.GetUrl url target] rfl
  | ConstantPool pool =>
    simp only [step] at h
    injection h with h; subst h
    exact hinv
  | Push values =>
    simp only [step] at h
    cases hres : resolveAll consts regs values with
    | none => rw [hres] at h; cases h
    | some pushed =>
      rw [hres] at h
      injection h with h; subst h
      have hall := resolveAll_refsBelow hres (stInv_regs hinv)
      exact stInv_push hinv pushed.reverse
        (fun v hv => List.all_eq_true.mp hall v (List.mem_reverse.mp hv))
  | Pop =>
    simp only [step] at h
    injection h with h; subst h
    exact stInv_drop hinv stack.tail (fun v hv => List.mem_of_mem_tail hv)
  | GetVariable =>
    cases stack with
    | nil => simp [step] at h
    | cons v t =>
      cases v
      case Str name =>
        simp only [step] at h
        injection h with h; subst h
        exact stInv_emit hinv t [.GetVar name] ops.length
          (fun x hx => List.mem_cons_of_mem _ hx) rfl (by simp)
      all_goals
        simp only [step] at h
        injection h with h; subst h
        exact stInv_drop hinv t (fun x hx => List.mem_cons_of_mem _ hx)
  | SetVariable =>
    cases stack with
    | nil => simp [step] at h
    | cons v rest0 =>
      cases rest0 with
      | nil => simp [step] at h
      | cons w t =>
        have hv : v.refsBelow ops.length = true := stInv_stack hinv v (by simp)
        cases w
        case Str name =>
          simp only [step] at h
          injection h with h; subst h
          exact stInv_emit hinv t [.SetVar name v] ops.length
            (fun x hx => by simp [hx])
            (by simp [wfFrom, Op.refsBelow, hv]) (by simp)
        all_goals
          simp only [step] at h
          injection h with h; subst h
          exact stInv_drop hinv t (fun x hx => by simp [hx])
  | CallFunction =>
    cases stack with
    | nil => simp [step] at h
    | cons name rest0 =>
      cases rest0 with
      | nil => simp [step] at h
      | cons argc t =>
        have hT : ∀ x ∈ t, x.refsBelow ops.length = true :=
          fun x hx => stInv_stack hinv x (by simp [hx])
        cases name
        case Str nm =>
          cases hac : argc.as_i32 with
          | none =>
            simp only [step, hac] at h
            injection h with h; subst h
            exact stInv_drop hinv t (fun x hx => by simp [hx])
          | some n =>
            simp only [step, hac] at h
            cases hpop : popN n.toNat t with
            | none => rw [hpop] at h; cases h
            | some p =>
              obtain ⟨args, rest⟩ := p
              rw [hpop] at h
              simp only [] at h
              injection h with h; subst h
              have ht := popN_eq_append hpop
              have hargs : ∀ x ∈ args, x.refsBelow (ops.length + 1) = true := by
                intro x hx
                refine Value.refsBelow_mono (Nat.le_succ _) (hT x ?_)
                rw [ht]
                exact List.mem_append_left _ hx
              exact stInv_emit hinv rest [.GetVar nm, .Call (.OpRes ops.length) args]
                (ops.length + 1)
                (fun x hx => by
                  have : x ∈ t := by rw [ht]; exact List.mem_append_right _ hx
                  simp [this])
                (by
                  simp [wfFrom, Op.refsBelow, Value.refsBelow, List.all_eq_true]
                  exact hargs)
                (by simp)
        all_goals
          cases hac : argc.as_i32 <;>
            (simp only [step, hac] at h
             injection h with h; subst h
             exact stInv_drop hinv t (fun x hx => by simp [hx]))
  | CallMethod =>
    cases stack with
    | nil => simp [step] at h
    | cons name rest0 =>
      cases rest0 with
      | nil => simp [step] at h
      | cons this rest1 =>
        cases rest1 with
        | nil => simp [step] at h
        | cons argc t =>
          have hthis : this.refsBelow ops.length = true := stInv_stack hinv this (by simp)
          have hT : ∀ x ∈ t, x.refsBelow ops.length = true :=
            fun x hx => stInv_stack hinv x (by simp [hx])
          cases name
          case Undefined =>
            cases hac : argc.as_i32 with
            | none =>
              simp only [step, normalizeMethodName, hac] at h
              injection h with h; subst h
              exact stInv_drop hinv t (fun x hx => by simp [hx])
            | some n =>
              simp only [step, normalizeMethodName, hac] at h
              cases hpop : popN n.toNat t with
              | none => rw [hpop] at h; cases h
              | some p =>
                obtain ⟨args, rest⟩ := p
                rw [hpop] at h
                simp only [] at h
                injection h with h; subst h
                have ht := popN_eq_append hpop
                have hargs : ∀ x ∈ args, x.refsBelow ops.length = true := by
                  intro x hx
                  refine hT x ?_
                  rw [ht]
                  exact List.mem_append_left _ hx
                exact stInv_emit hinv rest [.Call this args] ops.length
                  (fun x hx => by
                    have : x ∈ t := by rw [ht]; exact List.mem_append_right _ hx
                    simp [this])
                  (by
                    simp [wfFrom, Op.refsBelow, List.all_eq_true, hthis]
                    exact hargs)
                  (by simp)
          case Str nm =>
            by_cases hemp : nm = ""
            · subst hemp
              cases hac : argc.as_i32 with
              | none =>
                simp [step, normalizeMethodName, hac] at h
                subst h
                exact stInv_drop hinv t (fun x hx => by simp [hx])
              | some n =>
                simp only [step, show normalizeMethodName (.Str "") = .Undefined from rfl,
                  hac] at h
                cases hpop : popN n.toNat t with
                | none => rw [hpop] at h; cases h
                | some p =>
                  obtain ⟨args, rest⟩ := p
                  rw [hpop] at h
                  simp only [] at h
                  injection h with h; subst h
                  have ht := popN_eq_append hpop
                  have hargs : ∀ x ∈ args, x.refsBelow ops.length = true := by
                    intro x hx
                    refine hT x ?_
                    rw [ht]
                    exact List.mem_append_left _ hx
                  exact stInv_emit hinv rest [.Call this args] ops.length
                    (fun x hx => by
                      have : x ∈ t := by rw [ht]; exact List.mem_append_right _ hx
                      simp [this])
                    (by
                      simp [wfFrom, Op.refsBelow, List.all_eq_true, hthis]
                      exact hargs)
                    (by simp)
            · have hnm : normalizeMethodName (.Str nm) = .Str nm := by
                simp [normalizeMethodName, hemp]
              cases hac : argc.as_i32 with
              | none =>
                simp only [step, hnm, hac] at h
                injection h with h; subst h
                exact stInv_drop hinv t (fun x hx => by simp [hx])
              | some n =>
                simp only [step, hnm, hac] at h
                cases hpop : popN n.toNat t with
                | none => rw [hpop] at h; cases h
                | some p =>
                  obtain ⟨args, rest⟩ := p
                  rw [hpop] at h
                  simp only [] at h
                  injection h with h; subst h
                  have ht := popN_eq_append hpop
                  have hargs : ∀ x ∈ args, x.refsBelow ops.length = true := by
                    intro x hx
                    refine hT x ?_
                    rw [ht]
                    exact List.mem_append_left _ hx
                  exact stInv_emit hinv rest [.CallMethod this nm args] ops.length
                    (fun x hx => by
                      have : x ∈ t := by rw [ht]; exact List.mem_append_right _ hx
                      simp [this])
                    (by
                      simp [wfFrom, Op.refsBelow, List.all_eq_true, hthis]
                      exact hargs)
                    (by simp)
          all_goals
            cases hac : argc.as_i32 <;>
              (simp only [step, normalizeMethodName, hac] at h
               injection h with h; subst h
               exact stInv_drop hinv t (fun x hx => by simp [hx]))
  | other =>
    simp only [step] at h
    injection h with h; subst h
    exact hinv

/-- The translation loop preserves the invariant. -/
theorem runActions_inv {acts : List Action} {s s' : St}
    (h : runActions s acts = some s') (hinv : stInv s = true) : stInv s' = true := by
  induction acts generalizing s with
  | nil =>
    simp only [runActions] at h
    injection h with h; subst h
    exact hinv
  | cons a rest ih =>
    simp only [runActions] at h
    cases hst : step s a with
    | none => rw [hst] at h; cases h
    | some r =>
      rw [hst] at h
      cases r with
      | brk s1 =>
        injection h with h; subst h
        exact step_inv hst hinv
      | cont s1 =>
        exact ih h (step_inv hst hinv)

/-- No translated action ever writes the register file. -/
theorem step_regs_eq {s : St} {a : Action} {r : StepResult}
    (h : step s a = some r) : r.st.regs = s.regs := by
  obtain ⟨consts, regs, stack, ops⟩ := s
  cases a <;>
    (simp only [step] at h
     repeat' split at h
     all_goals
       first
         | (injection h with h; subst h; rfl)
         | cases h)

/-- The register file never changes across the whole translation loop. -/
theorem runActions_regs_eq {acts : List Action} {s s' : St}
    (h : runActions s acts = some s') : s'.regs = s.regs := by
  induction acts generalizing s with
  | nil =>
    simp only [runActions] at h
    injection h with h; subst h
    rfl
  | cons a rest ih =>
    simp only [runActions] at h
    cases hst : step s a with
    | none => rw [hst] at h; cases h
    | some r =>
      rw [hst] at h
      cases r with
      | brk s1 =>
        injection h with h; subst h
        exact step_regs_eq hst
      | cont s1 =>
        rw [ih h]
        exact step_regs_eq hst

/-- Resolving a push list that mentions a register against an empty register
file is the indexing panic. -/
theorem resolveAll_register_none {consts : List String} {values : List PushValue} {i : Nat}
    (hmem : PushValue.Register i ∈ values) : resolveAll consts [] values = none := by
  induction values with
  | nil => cases hmem
  | cons v rest ih =>
    rcases List.mem_cons.mp hmem with h | h
    · subst h
      simp [resolveAll, resolvePush]
    · simp only [resolveAll]
      rw [ih h]
      cases resolvePush consts [] v <;> rfl

/-! ## Claims -/

/-- Claim C1: for a block whose actions are `Push 1`, `Push 2`, `Push 2` (the
argument count), `Push "f"` and then `CallFunction`, `compile` emits exactly
two ops — `GetVar "f"` at index 0 followed by `Call (OpRes 0) [2, 1]`, the
arguments in pop order (reverse of push order) — and the action leaves
`OpRes 1` as the top of the symbolic stack. -/
theorem claim_callFunction_literal :
    compile { blocks := [{ actions := [.Push [.Sint32 1], .Push [.Sint32 2], .Push [.Sint32 2],
                                       .Push [.String "f"], .CallFunction],
                           flow := .WaitForFrame }] }
      = some { ops := [.GetVar "f", .Call (.OpRes 0) [.I32 2, .I32 1]] } ∧
    runActions initSt [.Push [.Sint32 1], .Push [.Sint32 2], .Push [.Sint32 2],
                       .Push [.String "f"], .CallFunction]
      = some { consts := [], regs := [], stack := [.OpRes 1],
               ops := [.GetVar "f", .Call (.OpRes 0) [.I32 2, .I32 1]] } :=
  ⟨by decide, by decide⟩

/-- Claim C2: in every `Code` returned by `compile`, every `OpRes i` occurring
anywhere in an op (as a `Call` callee, a `Call`/`CallMethod` argument, a
`CallMethod` receiver, or a `SetVar` value) satisfies `i <` the index of the
op containing it — no forward references, no reference to an op not yet
emitted (`wfFrom k ops` checks, via `Op.refsBelow`, the op at relative
position `j` against the bound `k + j`). -/
theorem claim_no_forward_refs (cfg : Cfg) (code : Code) (h : compile cfg = some code) :
    wfFrom 0 code.ops = true := by
  obtain ⟨blocks⟩ := cfg
  cases blocks with
  | nil => simp [compile] at h
  | cons b rest =>
    simp only [compile] at h
    cases hr : runActions initSt b.actions with
    | none => rw [hr] at h; cases h
    | some s' =>
      rw [hr] at h
      injection h with h
      have hinv := runActions_inv hr (by rfl : stInv initSt = true)
      have hwf := stInv_wf hinv
      rw [← h]
      simpa [applyFlow_ops] using hwf

/-- Witness for C2 at a concrete compiled block. -/
theorem claim_no_forward_refs_witness :
    wfFrom 0 [Op.GetVar "f", Op.Call (.OpRes 0) [.I32 2, .I32 1]] = true :=
  claim_no_forward_refs
    { blocks := [{ actions := [.Push [.Sint32 1], .Push [.Sint32 2], .Push [.Sint32 2],
                               .Push [.String "f"], .CallFunction],
                   flow := .WaitForFrame }] }
    { ops := [Op.GetVar "f", Op.Call (.OpRes 0) [.I32 2, .I32 1]] }
    (by decide)

/-- Claim C3: if `GetVariable` pops a value that is not a `Str`, translation
halts at that action without emitting a `GetVar` op, no op for any later
action of the block appears in the output, and the `Code` built so far is
still returned (`some`, never a failure); concretely, a block that pushes the
integer 7 and then runs `GetVariable` compiles to an empty `Code`, whatever
actions follow and whatever the flow marker is. -/
theorem claim_getVariable_non_string_bails (s : St) (v : Value) (t : List Value)
    (rest : List Action) (hs : s.stack = v :: t) (hv : ∀ nm, v ≠ Value.Str nm) :
    runActions s (.GetVariable :: rest) = some { s with stack := t } ∧
    ∀ fl, compile { blocks := [{ actions := .Push [.Sint32 7] :: .GetVariable :: rest,
                                 flow := fl }] }
        = some { ops := [] } := by
  constructor
  · have hstep : step s .GetVariable = some (.brk { s with stack := t }) := by
      cases v
      case Str nm => exact absurd rfl (hv nm)
      all_goals simp [step, hs]
    simp [runActions, hstep]
  · intro fl
    cases fl <;> rfl

/-- Witness for C3: `GetVariable` popping the integer 7. -/
theorem claim_getVariable_non_string_bails_witness :
    runActions { consts := [], regs := [], stack := [.I32 7], ops := [.Play] }
        [.GetVariable, .Stop]
      = some { consts := [], regs := [], stack := [], ops := [.Play] } :=
  (claim_getVariable_non_string_bails
    { consts := [], regs := [], stack := [.I32 7], ops := [.Play] }
    (.I32 7) [] [.Stop] rfl (by simp)).1

/-- Claim C4: a `CallMethod` whose popped method name is the empty string
behaves identically to one whose popped method name is `Undefined` (the name
is normalized before dispatch); in particular, when the argument count coerces
to an integer, both emit `Op.Call receiver args` — not `Op.CallMethod` — and
push the `OpRes` of the new op. -/
theorem claim_callMethod_empty_name (s : St) (t : List Value)
    (hs : s.stack = Value.Str "" :: t) :
    step s .CallMethod = step { s with stack := Value.Undefined :: t } .CallMethod ∧
    ∀ this argc u n, t = this :: argc :: u → argc.as_i32 = some n →
      step s .CallMethod = (popN n.toNat u).map fun p =>
        .cont { s with stack := Value.OpRes s.ops.length :: p.2,
                       ops := s.ops ++ [.Call this p.1] } := by
  constructor
  · cases t with
    | nil => simp [step, hs]
    | cons x t1 =>
      cases t1 with
      | nil => simp [step, hs]
      | cons y u => simp [step, hs, normalizeMethodName]
  · rintro this argc u n rfl hac
    cases hpop : popN n.toNat u with
    | none => simp [step, hs, normalizeMethodName, hac, hpop]
    | some p =>
      obtain ⟨args, rest⟩ := p
      simp [step, hs, normalizeMethodName, hac, hpop]

/-- Witness for C4: empty-string method name with receiver `I32 5` and
argument count 0. -/
theorem claim_callMethod_empty_name_witness :
    step { consts := [], regs := [], stack := [.Str "", .I32 5, .I32 0], ops := [] } .CallMethod
      = step { consts := [], regs := [], stack := [.Undefined, .I32 5, .I32 0], ops := [] }
          .CallMethod :=
  (claim_callMethod_empty_name _ _ rfl).1

/-- Claim C5: a `Push` carrying an in-range constant-pool index `i` pushes a
`Str` equal to the pool entry at `i` as the pool stands at the moment of the
push, and a `ConstantPool` action replaces the pool wholesale — so pool
replacements before the push are visible and replacements after it are not. -/
theorem claim_constant_pool_resolution (s : St) (pool : List String) (i : Nat)
    (h : i < s.consts.length) :
    step s (.ConstantPool pool) = some (.cont { s with consts := pool }) ∧
    step s (.Push [.Constant i])
      = some (.cont { s with stack := Value.Str (s.consts.get ⟨i, h⟩) :: s.stack }) := by
  refine ⟨rfl, ?_⟩
  simp [step, resolveAll, resolvePush, List.getElem?_eq_getElem h]

/-- Witness for C5: reading pool entry 0 of a one-entry pool. -/
theorem claim_constant_pool_resolution_witness :
    step { consts := ["a"], regs := [], stack := [], ops := [] } (.Push [.Constant 0])
      = some (.cont { consts := ["a"], regs := [], stack := [.Str "a"], ops := [] }) :=
  (claim_constant_pool_resolution
    { consts := ["a"], regs := [], stack := [], ops := [] } ["x"] 0 (by decide)).2

/-- Claim C6: compiling any block with the `WaitForFrame2` marker ("wait with
extra condition") yields a `Code` equal to compiling the same action list with
the `WaitForFrame` marker (the no-action marker): the epilogue's extra stack
discard never changes the emitted op sequence. -/
theorem claim_waitForFrame2_no_effect (actions : List Action) (rest : List CfgBlock) :
    compile { blocks := { actions := actions, flow := .WaitForFrame2 } :: rest }
      = compile { blocks := { actions := actions, flow := .WaitForFrame } :: rest } := by
  simp only [compile]
  cases runActions initSt actions <;> rfl

/-- Claim C7 counterexample: `Action::Pop` discards with a plain `Vec::pop`
(no `unwrap`), so popping an empty stack there is a silent no-op, not an
abnormal termination: translation continues (the following `Play` is still
translated) and `compile` returns a `Code`. -/
theorem claim_underflow_counterexample :
    compile { blocks := [{ actions := [.Pop, .Play], flow := .WaitForFrame }] }
      = some { ops := [.Play] } := by decide

/-- Claim C7 (amended): popping an empty operand stack through
`Option::unwrap` — in `GetVariable`, `SetVariable`, `CallFunction` and
`CallMethod`, including the argument-collection pops — terminates translation
abnormally; but `Action::Pop` (like the `WaitForFrame2` epilogue discard)
uses plain `Vec::pop`, which on an empty stack is a no-op, and translation
continues. -/
theorem claim_unwrap_underflow_panics (s : St) (hs : s.stack = []) :
    step s .GetVariable = none ∧
    step s .SetVariable = none ∧
    step s .CallFunction = none ∧
    step s .CallMethod = none ∧
    step { s with stack := [.Str "g", .I32 1] } .CallFunction = none ∧
    step s .Pop = some (.cont s) := by
  obtain ⟨consts, regs, stack, ops⟩ := s
  obtain rfl : stack = [] := hs
  exact ⟨rfl, rfl, rfl, rfl, rfl, rfl⟩

/-- Witness for C7 (amended) at the initial state. -/
theorem claim_unwrap_underflow_panics_witness :
    step initSt .GetVariable = none ∧
    step initSt .SetVariable = none ∧
    step initSt .CallFunction = none ∧
    step initSt .CallMethod = none ∧
    step { initSt with stack := [.Str "g", .I32 1] } .CallFunction = none ∧
    step initSt .Pop = some (.cont initSt) :=
  claim_unwrap_underflow_panics initSt rfl

/-- Claim C9: the register file remains empty throughout translation of any
block (no translated action writes a register), so every `Push` carrying a
register index reads an empty sequence and terminates translation abnormally
(index out of range) instead of producing a value. -/
theorem claim_registers_always_empty (s : St) (hregs : s.regs = []) :
    (∀ acts s', runActions s acts = some s' → s'.regs = []) ∧
    (∀ values i, PushValue.Register i ∈ values → step s (.Push values) = none) := by
  constructor
  · intro acts s' h
    rw [runActions_regs_eq h, hregs]
  · intro values i hmem
    simp [step, hregs, resolveAll_register_none hmem]

/-- Witness for C9: a register read at the initial (empty) register file. -/
theorem claim_registers_always_empty_witness :
    step initSt (.Push [.Register 0]) = none :=
  (claim_registers_always_empty initSt rfl).2 [.Register 0] 0
    (List.mem_cons_self _ _)

/-- Claim C10: `compile` requires a nonempty block list — on an empty one it
terminates abnormally (the `blocks.remove(0)` panic) instead of returning an
empty `Code` — and only the first block is ever translated: all later blocks
are discarded without effect on the output. -/
theorem claim_first_block_only :
    compile { blocks := [] } = none ∧
    ∀ b rest, compile { blocks := b :: rest } = compile { blocks := [b] } :=
  ⟨rfl, fun _ _ => rfl⟩

end Avm1
